import Mathlib

/-!
Verification of the duplicate-image finder (`src/main.rs`).

The program scans a directory for image files (by extension), fingerprints
each file with an MD5 hash of its decoded/normalized pixel data, groups
files sharing a fingerprint, and optionally deletes all but the first file
of each group after an interactive confirmation.

The shallow embedding below models:
  * directory contents as a list of `Entry` (files with byte contents,
    subdirectories with their own entries);
  * the OpenCV decode pipeline (`imread` + `resize` to 256x256 +
    `cvt_color` BGR2GRAY + `data_bytes`) as a parameter
    `decodeGray : List Nat → Option (List Nat)` taking the raw file bytes
    to the normalized grayscale pixel bytes, `none` when the file cannot
    be read or decoded (`imread` returns an empty matrix, or a later
    pipeline stage fails);
  * the MD5 digest (the `md5` crate) implemented in full;
  * the filesystem state during the deletion phase as the list of existing
    file paths, with a predicate `locked` for paths whose deletion fails
    (e.g. permission denied).
-/

/-- Lowercases a string character by character, as Rust `str::to_lowercase`
does for the ASCII file extensions and confirmation words relevant here. -/
def strToLower (s : String) : String := String.mk (s.data.map Char.toLower)

/-- Trims leading and trailing whitespace, as Rust `str::trim` does
(modelled with `Char.isWhitespace`, which covers the ASCII whitespace that
can arrive from `read_line`, in particular the trailing newline). -/
def strTrim (s : String) : String :=
  String.mk (((s.data.dropWhile Char.isWhitespace).reverse.dropWhile Char.isWhitespace).reverse)

/-- Extension of a file name, as Rust `Path::extension`: the portion of the
file name after the final `.`, or `none` when there is no `.` or the only
`.` is the leading character (dotfiles such as `.png` have no extension).
Implemented by scanning the reversed character list for the first dot. -/
def revExtAux : List Char → List Char → Option String
  | _, [] => none
  | acc, c :: rest =>
    if c = '.' then (if rest.isEmpty then none else some (String.mk acc))
    else revExtAux (c :: acc) rest

/-- Extension of a file name (Rust `Path::extension` on the final path
component). -/
def rustExtension (name : String) : Option String :=
  revExtAux [] name.data.reverse

/-- The fixed extension allow-list of `find_duplicate_images`
(`["png", "jpg", "jpeg", "gif", "bmp"]`, compared after lowercasing). -/
def allowedExtensions : List String := ["png", "jpg", "jpeg", "gif", "bmp"]

/-- A directory entry: a regular file with its byte contents, or a
subdirectory with its own entries. -/
inductive Entry where
  | file (name : String) (content : List Nat)
  | dir (name : String) (entries : List Entry)

/-- Whether a file name passes the extension filter of
`find_duplicate_images` lines 66-68: it has an extension (in the
`Path::extension` sense) whose lowercasing is in the allow-list. -/
def isImageName (name : String) : Bool :=
  match rustExtension name with
  | none => false
  | some ext => allowedExtensions.contains (strToLower ext)

/-- The candidate collection loop of `find_duplicate_images` (lines 60-73):
iterate over the immediate entries of the folder, keep regular files whose
name passes the extension filter, and record their full paths. Subdirectory
entries fail `path.is_file()` and are skipped; there is no recursion. -/
def collectImagePaths (folderPath : String) (entries : List Entry) : List String :=
  entries.filterMap fun e =>
    match e with
    | Entry.file name _ => if isImageName name then some (folderPath ++ "/" ++ name) else none
    | Entry.dir _ _ => none

/-- Modelled from the spec: the recursive traversal the specification
describes ("descends into all subdirectories"), collecting files under the
root at any depth whose name passes the extension filter. The source has no
such traversal; this definition exists only to compare the spec's claimed
behavior with `collectImagePaths`. -/
def specScanRecursive (folderPath : String) : List Entry → List String
  | [] => []
  | Entry.file name _ :: rest =>
    (if isImageName name then [folderPath ++ "/" ++ name] else []) ++
      specScanRecursive folderPath rest
  | Entry.dir name sub :: rest =>
    specScanRecursive (folderPath ++ "/" ++ name) sub ++ specScanRecursive folderPath rest

/-- Looks up the contents of the file at path `p` among the immediate file
entries of the folder (the paths produced by `collectImagePaths`), modelling
what `imread` reads back from disk during the hashing loop. -/
def readFileIn (folderPath : String) (entries : List Entry) (p : String) : Option (List Nat) :=
  entries.findSome? fun e =>
    match e with
    | Entry.file name c => if folderPath ++ "/" ++ name = p then some c else none
    | Entry.dir _ _ => none

/-- The lines printed by `find_duplicate_images` itself: line 76 prints
"No images found in folder: {folder_path}" exactly when the candidate list
is empty. -/
def scanOutput (folderPath : String) (entries : List Entry) : List String :=
  if (collectImagePaths folderPath entries).isEmpty then
    ["No images found in folder: " ++ folderPath]
  else []

/-! MD5 (the `md5` crate used by `calculate_image_hash`), over byte lists,
with 32-bit words as naturals reduced modulo `2^32`. -/

/-- Left-rotation of a 32-bit word. -/
def rotl32 (x n : Nat) : Nat :=
  ((x <<< n) % 4294967296) ||| ((x % 4294967296) >>> (32 - n))

/-- The MD5 round constants `K[0..63]`. -/
def md5K : List Nat :=
  [0xd76aa478, 0xe8c7b756, 0x242070db, 0xc1bdceee,
   0xf57c0faf, 0x4787c62a, 0xa8304613, 0xfd469501,
   0x698098d8, 0x8b44f7af, 0xffff5bb1, 0x895cd7be,
   0x6b901122, 0xfd987193, 0xa679438e, 0x49b40821,
   0xf61e2562, 0xc040b340, 0x265e5a51, 0xe9b6c7aa,
   0xd62f105d, 0x02441453, 0xd8a1e681, 0xe7d3fbc8,
   0x21e1cde6, 0xc33707d6, 0xf4d50d87, 0x455a14ed,
   0xa9e3e905, 0xfcefa3f8, 0x676f02d9, 0x8d2a4c8a,
   0xfffa3942, 0x8771f681, 0x6d9d6122, 0xfde5380c,
   0xa4beea44, 0x4bdecfa9, 0xf6bb4b60, 0xbebfbc70,
   0x289b7ec6, 0xeaa127fa, 0xd4ef3085, 0x04881d05,
   0xd9d4d039, 0xe6db99e5, 0x1fa27cf8, 0xc4ac5665,
   0xf4292244, 0x432aff97, 0xab9423a7, 0xfc93a039,
   0x655b59c3, 0x8f0ccc92, 0xffeff47d, 0x85845dd1,
   0x6fa87e4f, 0xfe2ce6e0, 0xa3014314, 0x4e0811a1,
   0xf7537e82, 0xbd3af235, 0x2ad7d2bb, 0xeb86d391]

/-- The MD5 per-round shift amounts `s[0..63]`. -/
def md5S : List Nat :=
  [7, 12, 17, 22, 7, 12, 17, 22, 7, 12, 17, 22, 7, 12, 17, 22,
   5, 9, 14, 20, 5, 9, 14, 20, 5, 9, 14, 20, 5, 9, 14, 20,
   4, 11, 16, 23, 4, 11, 16, 23, 4, 11, 16, 23, 4, 11, 16, 23,
   6, 10, 15, 21, 6, 10, 15, 21, 6, 10, 15, 21, 6, 10, 15, 21]

/-- The MD5 nonlinear function of round `i` applied to `(b, c, d)`. -/
def md5F (i b c d : Nat) : Nat :=
  if i < 16 then (b &&& c) ||| ((b ^^^ 4294967295) &&& d)
  else if i < 32 then (d &&& b) ||| ((d ^^^ 4294967295) &&& c)
  else if i < 48 then b ^^^ c ^^^ d
  else c ^^^ (b ||| (d ^^^ 4294967295))

/-- The MD5 message-word index of round `i`. -/
def md5G (i : Nat) : Nat :=
  if i < 16 then i
  else if i < 32 then (5 * i + 1) % 16
  else if i < 48 then (3 * i + 5) % 16
  else (7 * i) % 16

/-- Packs bytes into little-endian 32-bit words, four bytes per word. -/
def leWords : List Nat → List Nat
  | b0 :: b1 :: b2 :: b3 :: rest =>
    (b0 + 256 * b1 + 65536 * b2 + 16777216 * b3) :: leWords rest
  | _ => []

/-- Serializes a 32-bit word to four little-endian bytes. -/
def le4 (x : Nat) : List Nat :=
  [x % 256, x / 256 % 256, x / 65536 % 256, x / 16777216 % 256]

/-- Serializes a 64-bit value to eight little-endian bytes. -/
def le8 (x : Nat) : List Nat :=
  le4 (x % 4294967296) ++ le4 (x / 4294967296)

/-- MD5 padding: append `0x80`, zero bytes up to 56 mod 64, then the
original bit length as a little-endian 64-bit value. -/
def md5Pad (msg : List Nat) : List Nat :=
  msg ++ [128] ++ List.replicate ((119 - msg.length % 64) % 64) 0 ++
    le8 (8 * msg.length % 18446744073709551616)

/-- Splits a byte list into 64-byte chunks. -/
def chunksOf64 : List Nat → List (List Nat)
  | [] => []
  | a :: rest => ((a :: rest).take 64) :: chunksOf64 ((a :: rest).drop 64)
  termination_by l => l.length
  decreasing_by simp; omega

/-- One MD5 round: `i` is the round index, `m` the sixteen message words of
the current chunk, `(a, b, c, d)` the working state. -/
def md5Round (m : List Nat) (st : Nat × Nat × Nat × Nat) (i : Nat) : Nat × Nat × Nat × Nat :=
  let a := st.1
  let b := st.2.1
  let c := st.2.2.1
  let d := st.2.2.2
  let f := (md5F i b c d + a + md5K.getD i 0 + m.getD (md5G i) 0) % 4294967296
  (d, (b + rotl32 f (md5S.getD i 0)) % 4294967296, b, c)

/-- Processes one 64-byte chunk, updating the four state words. -/
def md5ProcessChunk (st : Nat × Nat × Nat × Nat) (chunk : List Nat) : Nat × Nat × Nat × Nat :=
  let w := leWords chunk
  let r := (List.range 64).foldl (md5Round w) st
  ((st.1 + r.1) % 4294967296, (st.2.1 + r.2.1) % 4294967296,
   (st.2.2.1 + r.2.2.1) % 4294967296, (st.2.2.2 + r.2.2.2) % 4294967296)

/-- MD5 digest of a byte list, as sixteen bytes. -/
def md5Bytes (msg : List Nat) : List Nat :=
  let st := (chunksOf64 (md5Pad msg)).foldl md5ProcessChunk
    (0x67452301, 0xefcdab89, 0x98badcfe, 0x10325476)
  le4 st.1 ++ le4 st.2.1 ++ le4 st.2.2.1 ++ le4 st.2.2.2

/-- The sixteen lowercase hexadecimal digits. -/
def hexDigitChars : List Char := "0123456789abcdef".data

/-- The lowercase hexadecimal digit of `n % 16`. -/
def hexDigit (n : Nat) : Char := hexDigitChars.getD (n % 16) '0'

/-- Two lowercase hexadecimal digits per byte, as the `md5` crate's
`LowerHex` instance prints a digest (`format!` with `x` on line 49). -/
def hexOfBytes : List Nat → List Char
  | [] => []
  | b :: rest => hexDigit (b / 16) :: hexDigit b :: hexOfBytes rest

/-- MD5 digest of a byte list, formatted as a lowercase hexadecimal string
(lines 46-49 of the source). -/
def md5hex (msg : List Nat) : String := String.mk (hexOfBytes (md5Bytes msg))

/-- Errors a run of `find_duplicate_images` can produce. The source carries
them as `Box<dyn Error>` holding strings: `notFound folder` is the line-56
error `format!("Folder not found at {}", folder_path)`, and
`couldNotRead path` is the line-18 error
`format!("Could not read image at {}", image_path)` (OpenCV pipeline
failures after a successful read are folded into the same constructor, as
`decodeGray` models the whole pipeline). -/
inductive ScanError where
  | notFound (folder : String)
  | couldNotRead (path : String)
deriving DecidableEq

/-- The fingerprinting function `calculate_image_hash` (lines 14-50): read
and decode the image at `image_path` through the OpenCV pipeline
(`readF` then `decodeGray`); on failure return the "Could not read image"
error, otherwise the MD5 hex digest of the normalized pixel bytes. -/
def calculate_image_hash (decodeGray : List Nat → Option (List Nat))
    (readF : String → Option (List Nat)) (image_path : String) : Except ScanError String :=
  match readF image_path with
  | none => Except.error (ScanError.couldNotRead image_path)
  | some content =>
    match decodeGray content with
    | none => Except.error (ScanError.couldNotRead image_path)
    | some pixels => Except.ok (md5hex pixels)

/-- The insertion `image_hashes.entry(image_hash).or_insert_with(Vec::new).push(image_path)`
of line 84, on an insertion-ordered association list from fingerprints to
path lists: append the path to the existing entry for the hash, or create a
new singleton entry. -/
def insertHash : List (String × List String) → String → String → List (String × List String)
  | [], h, p => [(h, [p])]
  | (k, ps) :: rest, h, p =>
    if k = h then (k, ps ++ [p]) :: rest else (k, ps) :: insertHash rest h p

/-- The hashing loop of lines 81-85: fingerprint each candidate path in
order, inserting into the hash-to-paths mapping; the first fingerprinting
error aborts the loop (the `?` operator on line 83). -/
def buildHashesLoop (decodeGray : List Nat → Option (List Nat))
    (readF : String → Option (List Nat)) :
    List (String × List String) → List String → Except ScanError (List (String × List String))
  | m, [] => Except.ok m
  | m, p :: rest =>
    match calculate_image_hash decodeGray readF p with
    | Except.error e => Except.error e
    | Except.ok h => buildHashesLoop decodeGray readF (insertHash m h p) rest

/-- The function `find_duplicate_images` (lines 53-94). The root argument is
`none` when `Path::new(folder_path).is_dir()` is false (line 55), otherwise
`some entries` with the directory's immediate entries. On success it returns
the fingerprint-to-paths mapping restricted to groups with more than one
path (lines 88-91). -/
def find_duplicate_images (decodeGray : List Nat → Option (List Nat)) (folderPath : String)
    (root : Option (List Entry)) : Except ScanError (List (String × List String)) :=
  match root with
  | none => Except.error (ScanError.notFound folderPath)
  | some entries =>
    let image_paths := collectImagePaths folderPath entries
    if image_paths.isEmpty then Except.ok []
    else
      match buildHashesLoop decodeGray (readFileIn folderPath entries) [] image_paths with
      | Except.error e => Except.error e
      | Except.ok image_hashes =>
        Except.ok (image_hashes.filter fun g => decide (1 < g.2.length))

/-- The grouping of lines 81-91 viewed as a function of the ordered list of
`(path, fingerprint)` pairs: fold the per-pair insertion over the list. -/
def groupPairs (pairs : List (String × String)) : List (String × List String) :=
  pairs.foldl (fun m q => insertHash m q.2 q.1) []

/-- The duplicate filter of lines 88-91 applied to the grouped pairs: keep
only fingerprints with more than one path. -/
def duplicatesOf (pairs : List (String × String)) : List (String × List String) :=
  (groupPairs pairs).filter fun g => decide (1 < g.2.length)

/-- Deletion of a single file, modelling `fs::remove_file` (line 129) on a
filesystem given by the list `fs` of existing paths: it fails (`none`) when
the path is locked (e.g. permission denied) or does not exist, and
otherwise removes the path. -/
def removeFile (locked : String → Bool) (fs : List String) (p : String) : Option (List String) :=
  if locked p then none
  else if decide (p ∈ fs) then some (fs.filter fun q => decide (q ≠ p)) else none

/-- The inner deletion loop of lines 127-134 over a list of paths: attempt
each deletion in order; a failure is recorded in the returned error list
(the `eprintln!` on line 130) and does not stop the remaining attempts. -/
def deletePaths (locked : String → Bool) : List String → List String → List String × List String
  | fs, [] => (fs, [])
  | fs, p :: rest =>
    match removeFile locked fs p with
    | none =>
      let r := deletePaths locked fs rest
      (r.1, p :: r.2)
    | some fs2 => deletePaths locked fs2 rest

/-- The outer deletion loop of lines 125-135: for each duplicate group,
keep the first path and attempt to delete the rest (`iter().skip(1)` on
line 127). Returns the final filesystem and the concatenated per-file
deletion-error reports. -/
def deleteGroups (locked : String → Bool) :
    List String → List (String × List String) → List String × List String
  | fs, [] => (fs, [])
  | fs, g :: gs =>
    let r1 := deletePaths locked fs (g.2.drop 1)
    let r2 := deleteGroups locked r1.1 gs
    (r2.1, r1.2 ++ r2.2)

/-- The confirmation test of lines 122-124: the line read from stdin is
trimmed, lowercased, and compared with `"yes"`. -/
def confirmDelete (input : String) : Bool := strToLower (strTrim input) == "yes"

/-- The behavior of `main` after a successful scan (lines 107-140), on the
duplicate-group mapping and the confirmation line: when there are
duplicates and the confirmation passes, run the deletion loops; otherwise
leave the filesystem unchanged and report no deletion errors. -/
def mainAfterScan (locked : String → Bool) (fs : List String)
    (duplicates : List (String × List String)) (confirmInput : String) :
    List String × List String :=
  if duplicates.isEmpty then (fs, [])
  else if confirmDelete confirmInput then deleteGroups locked fs duplicates
  else (fs, [])

/-! Scanner lemmas. -/

/-- Membership in the candidate list: exactly the immediate file entries
passing the extension filter, with the folder path prepended. -/
theorem mem_collectImagePaths (fp : String) (entries : List Entry) (p : String) :
    p ∈ collectImagePaths fp entries ↔
      ∃ name content, Entry.file name content ∈ entries ∧ isImageName name = true ∧
        p = fp ++ "/" ++ name := by
  simp only [collectImagePaths, List.mem_filterMap]
  constructor
  · rintro ⟨e, he, hfe⟩
    cases e with
    | file name c =>
      by_cases h : isImageName name
      · simp only [h, if_true, Option.some.injEq] at hfe
        exact ⟨name, c, he, h, hfe.symm⟩
      · simp [h] at hfe
    | dir n es => simp at hfe
  · rintro ⟨name, c, hmem, him, rfl⟩
    exact ⟨Entry.file name c, hmem, by simp [him]⟩

/-- Unfolding of the extension filter: a name passes it exactly when
`Path::extension` yields an extension whose lowercasing is allow-listed. -/
theorem isImageName_iff (name : String) :
    isImageName name = true ↔
      ∃ e, rustExtension name = some e ∧ strToLower e ∈ allowedExtensions := by
  unfold isImageName
  cases h : rustExtension name with
  | none => simp
  | some e => simp [h]

/-- C1. The claim asserts a recursive scan. The code's collection loop uses
a single `fs::read_dir` and `path.is_file()`, so files in subdirectories
are not candidates: on a folder whose only image sits inside a
subdirectory, the collected candidate list is empty while the recursive
traversal described by the spec would return that file. -/
theorem C1_counterexample :
    collectImagePaths "d" [Entry.dir "sub" [Entry.file "a.png" [0]]] = [] ∧
    specScanRecursive "d" [Entry.dir "sub" [Entry.file "a.png" [0]]] = ["d/sub/a.png"] := by
  constructor
  · rfl
  · simp [specScanRecursive]
    decide

/-- C1 (amended): for every directory, the scan returns exactly the set of
immediate child files of the directory whose lowercased extension is in the
fixed allow-list, and no others; files located in subdirectories are not
included (the traversal is shallow). -/
theorem C1_scan_exact_shallow (fp : String) (entries : List Entry) (p : String) :
    p ∈ collectImagePaths fp entries ↔
      ∃ name content, Entry.file name content ∈ entries ∧ p = fp ++ "/" ++ name ∧
        ∃ e, rustExtension name = some e ∧ strToLower e ∈ allowedExtensions := by
  rw [mem_collectImagePaths]
  constructor
  · rintro ⟨name, c, hmem, him, rfl⟩
    exact ⟨name, c, hmem, rfl, (isImageName_iff name).mp him⟩
  · rintro ⟨name, c, hmem, rfl, hext⟩
    exact ⟨name, c, hmem, (isImageName_iff name).mpr hext, rfl⟩

/-- C1 witness: a top-level image file is collected. -/
theorem C1_witness :
    "d/a.png" ∈ collectImagePaths "d" [Entry.file "a.png" [0], Entry.dir "sub" []] :=
  (C1_scan_exact_shallow "d" _ "d/a.png").mpr
    ⟨"a.png", [0], List.mem_cons_self _ _, by decide, "png", by decide, by decide⟩

/-- C10. Candidates arise only from regular-file entries whose name has an
extension in the `Path::extension` sense; directory entries never
contribute, and names with no extension component — dot-leading names such
as `.png` and dotless names such as `png` — are rejected even though they
end in an allowed suffix. -/
theorem C10_only_files_with_extensions (fp : String) (entries : List Entry) (p : String) :
    (p ∈ collectImagePaths fp entries →
      ∃ name content, Entry.file name content ∈ entries ∧ rustExtension name ≠ none ∧
        p = fp ++ "/" ++ name) ∧
    isImageName ".png" = false ∧ isImageName "png" = false ∧
    (∀ name sub, collectImagePaths fp [Entry.dir name sub] = []) := by
  refine ⟨?_, by decide, by decide, fun name sub => rfl⟩
  intro hp
  obtain ⟨name, c, hmem, him, rfl⟩ := (mem_collectImagePaths fp entries _).mp hp
  obtain ⟨e, he, -⟩ := (isImageName_iff name).mp him
  exact ⟨name, c, hmem, by simp [he], rfl⟩

/-- C10 witness: instance of the characterization on a concrete folder. -/
theorem C10_witness :
    ∃ name content,
      Entry.file name content ∈ [Entry.file "b.jpg" [1]] ∧ rustExtension name ≠ none ∧
        "d/b.jpg" = "d" ++ "/" ++ name :=
  (C10_only_files_with_extensions "d" [Entry.file "b.jpg" [1]] "d/b.jpg").1 (by decide)

/-! Error-propagation lemmas. -/

/-- Every error of `calculate_image_hash` is the "Could not read image"
error for the requested path. -/
theorem calculate_image_hash_error (decodeGray : List Nat → Option (List Nat))
    (readF : String → Option (List Nat)) (p : String) (e : ScanError)
    (h : calculate_image_hash decodeGray readF p = Except.error e) :
    e = ScanError.couldNotRead p := by
  unfold calculate_image_hash at h
  split at h
  · cases h; rfl
  · split at h
    · cases h; rfl
    · cases h

/-- Every error of the hashing loop is a "Could not read image" error. -/
theorem buildHashesLoop_error (decodeGray : List Nat → Option (List Nat))
    (readF : String → Option (List Nat)) (m : List (String × List String))
    (paths : List String) (e : ScanError)
    (h : buildHashesLoop decodeGray readF m paths = Except.error e) :
    ∃ p, e = ScanError.couldNotRead p := by
  induction paths generalizing m with
  | nil => simp [buildHashesLoop] at h
  | cons p rest ih =>
    rw [buildHashesLoop] at h
    cases hc : calculate_image_hash decodeGray readF p with
    | error e2 =>
      rw [hc] at h
      cases h
      exact ⟨p, calculate_image_hash_error _ _ _ _ hc⟩
    | ok hsh =>
      rw [hc] at h
      exact ih _ h

/-- When some path in the list fails to fingerprint, the hashing loop
returns a "Could not read image" error. -/
theorem buildHashesLoop_aborts (decodeGray : List Nat → Option (List Nat))
    (readF : String → Option (List Nat)) (paths : List String) (p : String)
    (hp : p ∈ paths)
    (hfail : calculate_image_hash decodeGray readF p =
      Except.error (ScanError.couldNotRead p)) :
    ∀ m, ∃ q, buildHashesLoop decodeGray readF m paths =
      Except.error (ScanError.couldNotRead q) := by
  induction paths with
  | nil => cases hp
  | cons a rest ih =>
    intro m
    rw [buildHashesLoop]
    cases hc : calculate_image_hash decodeGray readF a with
    | error e2 =>
      exact ⟨a, by rw [calculate_image_hash_error _ _ _ _ hc]⟩
    | ok hsh =>
      rcases List.mem_cons.mp hp with rfl | hrest
      · rw [hc] at hfail; cases hfail
      · exact ih hrest _

/-- C5. A candidate file that cannot be opened or decoded makes the
fingerprinting function return the decode error for that path, and this
failure propagates: `find_duplicate_images` returns a decode error for the
whole run and no duplicate-group mapping is produced. -/
theorem C5_decode_error_aborts_scan (decodeGray : List Nat → Option (List Nat))
    (folderPath : String) (entries : List Entry) (p : String)
    (hp : p ∈ collectImagePaths folderPath entries)
    (hfail : (readFileIn folderPath entries p).bind decodeGray = none) :
    calculate_image_hash decodeGray (readFileIn folderPath entries) p =
      Except.error (ScanError.couldNotRead p) ∧
    ∃ q, find_duplicate_images decodeGray folderPath (some entries) =
      Except.error (ScanError.couldNotRead q) := by
  have hcalc : calculate_image_hash decodeGray (readFileIn folderPath entries) p =
      Except.error (ScanError.couldNotRead p) := by
    unfold calculate_image_hash
    split
    · rfl
    · rename_i c heq
      rw [heq] at hfail
      simp only [Option.bind] at hfail
      simp [hfail]
  refine ⟨hcalc, ?_⟩
  obtain ⟨q, hq⟩ := buildHashesLoop_aborts decodeGray (readFileIn folderPath entries)
    (collectImagePaths folderPath entries) p hp hcalc []
  refine ⟨q, ?_⟩
  unfold find_duplicate_images
  have hne : (collectImagePaths folderPath entries).isEmpty = false := by
    cases hl : collectImagePaths folderPath entries with
    | nil => rw [hl] at hp; cases hp
    | cons x xs => rfl
  simp only [hne, Bool.false_eq_true, if_false, hq]

/-- C5 witness: a one-image folder whose decode pipeline fails. -/
theorem C5_witness :
    calculate_image_hash (fun _ => none) (readFileIn "d" [Entry.file "a.png" [0]]) "d/a.png" =
      Except.error (ScanError.couldNotRead "d/a.png") ∧
    ∃ q, find_duplicate_images (fun _ => none) "d" (some [Entry.file "a.png" [0]]) =
      Except.error (ScanError.couldNotRead q) :=
  C5_decode_error_aborts_scan (fun _ => none) "d" [Entry.file "a.png" [0]] "d/a.png"
    (by decide) rfl

/-- C6. The scan fails with the "Folder not found" error exactly when the
root is not an existing directory; an existing directory never produces
that error, and the failure happens before any work: the result on a
missing root does not depend on the decode pipeline at all. -/
theorem C6_notFound_exactly_on_missing_root (decodeGray : List Nat → Option (List Nat))
    (folderPath : String) :
    (find_duplicate_images decodeGray folderPath none =
      Except.error (ScanError.notFound folderPath)) ∧
    (∀ entries g, find_duplicate_images decodeGray folderPath (some entries) ≠
      Except.error (ScanError.notFound g)) ∧
    (∀ d2, find_duplicate_images decodeGray folderPath none =
      find_duplicate_images d2 folderPath none) := by
  refine ⟨rfl, ?_, fun d2 => rfl⟩
  intro entries g h
  unfold find_duplicate_images at h
  by_cases he : (collectImagePaths folderPath entries).isEmpty
  · simp only [he, if_true] at h
    cases h
  · simp only [he, if_false] at h
    cases hb : buildHashesLoop decodeGray (readFileIn folderPath entries) []
        (collectImagePaths folderPath entries) with
    | error e =>
      rw [hb] at h
      cases h
      obtain ⟨q, hq⟩ := buildHashesLoop_error _ _ _ _ _ hb
      cases hq
    | ok m => rw [hb] at h; cases h

/-- C6 witness: the concrete "Folder not found" failure on a missing root,
and its absence on a concrete existing directory. -/
theorem C6_witness :
    find_duplicate_images (fun _ => none) "d" none =
      Except.error (ScanError.notFound "d") ∧
    find_duplicate_images (fun _ => none) "d" (some []) ≠
      Except.error (ScanError.notFound "d") :=
  ⟨(C6_notFound_exactly_on_missing_root (fun _ => none) "d").1,
   (C6_notFound_exactly_on_missing_root (fun _ => none) "d").2.1 [] "d"⟩

/-- C9. A scan of an existing directory with no candidate files returns the
empty duplicate-group mapping as a success value, and the "no images found"
line is printed. -/
theorem C9_empty_scan_succeeds (decodeGray : List Nat → Option (List Nat))
    (folderPath : String) (entries : List Entry)
    (h : collectImagePaths folderPath entries = []) :
    find_duplicate_images decodeGray folderPath (some entries) = Except.ok [] ∧
    scanOutput folderPath entries = ["No images found in folder: " ++ folderPath] := by
  constructor
  · unfold find_duplicate_images
    simp [h]
  · unfold scanOutput
    simp [h]

/-- C9 witness: the empty directory. -/
theorem C9_witness :
    find_duplicate_images (fun _ => none) "d" (some []) = Except.ok [] ∧
    scanOutput "d" [] = ["No images found in folder: " ++ "d"] :=
  C9_empty_scan_succeeds (fun _ => none) "d" [] rfl

/-! Grouping lemmas. -/

/-- The path list recorded for fingerprint `f` in the mapping (first entry
with that key; the insertion keeps keys unique, see `keysOf_nodup`). -/
def lookupPaths (f : String) : List (String × List String) → List String
  | [] => []
  | (k, ps) :: rest => if k = f then ps else lookupPaths f rest

/-- The fingerprints present in the mapping, in insertion order. -/
def keysOf (m : List (String × List String)) : List String := m.map Prod.fst

/-- Inserting a path under fingerprint `h` appends it to the list recorded
for `h` and leaves every other fingerprint's list unchanged. -/
theorem lookupPaths_insertHash (m : List (String × List String)) (h p f : String) :
    lookupPaths f (insertHash m h p) =
      lookupPaths f m ++ if h = f then [p] else [] := by
  induction m with
  | nil =>
    by_cases hf : h = f <;> simp [insertHash, lookupPaths, hf]
  | cons kv rest ih =>
    obtain ⟨k, ps⟩ := kv
    by_cases hk : k = h
    · subst hk
      by_cases hf : k = f
      · simp [insertHash, lookupPaths, hf]
      · simp [insertHash, lookupPaths, hf]
    · by_cases hf : k = f
      · subst hf
        have : ¬h = k := fun hh => hk hh.symm
        simp [insertHash, lookupPaths, hk, this]
      · simp [insertHash, lookupPaths, hk, hf, ih]

/-- Folding the insertion over a pair list appends, under each fingerprint,
the paths of the pairs carrying that fingerprint, in order. -/
theorem lookupPaths_foldl (pairs : List (String × String)) (f : String) :
    ∀ m, lookupPaths f (pairs.foldl (fun m q => insertHash m q.2 q.1) m) =
      lookupPaths f m ++ ((pairs.filter fun q => decide (q.2 = f)).map Prod.fst) := by
  induction pairs with
  | nil => simp
  | cons q rest ih =>
    intro m
    obtain ⟨p, h⟩ := q
    by_cases hf : h = f
    · subst hf
      simp only [List.foldl_cons, ih, lookupPaths_insertHash, List.filter_cons]
      simp
    · simp only [List.foldl_cons, ih, lookupPaths_insertHash, List.filter_cons]
      simp [hf]

/-- The group recorded for a fingerprint is exactly the ordered list of
paths of the input pairs carrying that fingerprint. -/
theorem lookupPaths_groupPairs (pairs : List (String × String)) (f : String) :
    lookupPaths f (groupPairs pairs) =
      (pairs.filter fun q => decide (q.2 = f)).map Prod.fst := by
  rw [groupPairs, lookupPaths_foldl]
  rfl

/-- Insertion never removes a fingerprint and adds at most the inserted
one. -/
theorem keysOf_insertHash (m : List (String × List String)) (h p : String) :
    keysOf (insertHash m h p) = if h ∈ keysOf m then keysOf m else keysOf m ++ [h] := by
  induction m with
  | nil => simp [insertHash, keysOf]
  | cons kv rest ih =>
    obtain ⟨k, ps⟩ := kv
    by_cases hk : k = h
    · subst hk
      simp [insertHash, keysOf]
    · have hne : ¬h = k := fun hh => hk hh.symm
      simp only [insertHash, hk, if_false, keysOf, List.map_cons, List.mem_cons] at ih ⊢
      by_cases hmem : h ∈ rest.map Prod.fst
      · simp only [hmem, if_true] at ih
        simp [hmem, hne, ih]
      · simp only [hmem, if_false] at ih
        simp [hmem, hne, ih]

/-- Insertion preserves distinctness of the fingerprints. -/
theorem keysOf_insertHash_nodup (m : List (String × List String)) (h p : String)
    (hd : (keysOf m).Nodup) : (keysOf (insertHash m h p)).Nodup := by
  rw [keysOf_insertHash]
  by_cases hmem : h ∈ keysOf m
  · simpa [hmem] using hd
  · simp only [hmem, if_false]
    simpa [List.nodup_append, hmem] using hd

/-- The mapping built from a pair list has distinct fingerprints. -/
theorem keysOf_groupPairs_nodup (pairs : List (String × String)) :
    (keysOf (groupPairs pairs)).Nodup := by
  suffices hgen : ∀ m, (keysOf m).Nodup →
      (keysOf (pairs.foldl (fun m q => insertHash m q.2 q.1) m)).Nodup by
    exact hgen [] (by simp [keysOf])
  induction pairs with
  | nil => intro m hm; simpa using hm
  | cons q rest ih =>
    intro m hm
    exact ih _ (keysOf_insertHash_nodup _ _ _ hm)

/-- In a mapping with distinct fingerprints, membership determines the
recorded path list. -/
theorem mem_lookupPaths_eq (m : List (String × List String)) (f : String)
    (ps : List String) (hmem : (f, ps) ∈ m) (hd : (keysOf m).Nodup) :
    lookupPaths f m = ps := by
  induction m with
  | nil => cases hmem
  | cons kv rest ih =>
    obtain ⟨k, qs⟩ := kv
    have hd' : k ∉ rest.map Prod.fst ∧ (rest.map Prod.fst).Nodup := by
      simp only [keysOf, List.map_cons] at hd
      exact List.nodup_cons.mp hd
    rcases List.mem_cons.mp hmem with heq | hrest
    · cases heq
      simp [lookupPaths]
    · have hfk : f ∈ rest.map Prod.fst := List.mem_map_of_mem Prod.fst hrest
      have hk : ¬k = f := by
        rintro rfl
        exact hd'.1 hfk
      simp only [lookupPaths, hk, if_false]
      exact ih hrest hd'.2

/-- A fingerprint present among the keys is present as an entry, with its
recorded path list. -/
theorem lookupPaths_mem (m : List (String × List String)) (f : String)
    (hmem : f ∈ keysOf m) : (f, lookupPaths f m) ∈ m := by
  induction m with
  | nil => simp [keysOf] at hmem
  | cons kv rest ih =>
    obtain ⟨k, qs⟩ := kv
    by_cases hk : k = f
    · subst hk
      simp [lookupPaths]
    · have : f ∈ keysOf rest := by
        rcases by simpa [keysOf] using hmem with h1 | h2
        · exact absurd h1.symm hk
        · simpa [keysOf] using h2
      simp only [lookupPaths, hk, if_false]
      exact List.mem_cons_of_mem _ (ih this)

/-- A fingerprint with a nonempty recorded list is among the keys. -/
theorem lookupPaths_ne_nil_mem (m : List (String × List String)) (f : String)
    (hne : lookupPaths f m ≠ []) : f ∈ keysOf m := by
  induction m with
  | nil => simp [lookupPaths] at hne
  | cons kv rest ih =>
    obtain ⟨k, qs⟩ := kv
    by_cases hk : k = f
    · subst hk
      simp [keysOf]
    · simp only [lookupPaths, hk, if_false] at hne
      simp only [keysOf, List.map_cons, List.mem_cons]
      exact Or.inr (by simpa [keysOf] using ih hne)

/-- Membership in the duplicate mapping unfolds to membership in the full
mapping plus the length filter of line 90. -/
theorem mem_duplicatesOf_iff (pairs : List (String × String)) (f : String) (ps : List String) :
    (f, ps) ∈ duplicatesOf pairs ↔ (f, ps) ∈ groupPairs pairs ∧ 1 < ps.length := by
  unfold duplicatesOf
  rw [List.mem_filter]
  simp

/-- An emitted duplicate group is the ordered list of input paths carrying
its fingerprint. -/
theorem mem_duplicatesOf_eq (pairs : List (String × String)) (f : String) (ps : List String)
    (h : (f, ps) ∈ duplicatesOf pairs) :
    ps = (pairs.filter fun q => decide (q.2 = f)).map Prod.fst := by
  have hg : (f, ps) ∈ groupPairs pairs := ((mem_duplicatesOf_iff pairs f ps).mp h).1
  have := mem_lookupPaths_eq (groupPairs pairs) f ps hg (keysOf_groupPairs_nodup pairs)
  rw [← this, lookupPaths_groupPairs]

/-- A fingerprint is emitted exactly when at least two input pairs carry
it. -/
theorem exists_duplicatesOf_iff (pairs : List (String × String)) (f : String) :
    (∃ ps, (f, ps) ∈ duplicatesOf pairs) ↔
      2 ≤ (pairs.filter fun q => decide (q.2 = f)).length := by
  constructor
  · rintro ⟨ps, hps⟩
    have h1 : 1 < ps.length := ((mem_duplicatesOf_iff pairs f ps).mp hps).2
    have h2 := mem_duplicatesOf_eq pairs f ps hps
    rw [h2, List.length_map] at h1
    omega
  · intro h2
    have hlook := lookupPaths_groupPairs pairs f
    have hne : lookupPaths f (groupPairs pairs) ≠ [] := by
      rw [hlook]
      intro hnil
      rw [← List.length_eq_zero, List.length_map] at hnil
      omega
    have hmem := lookupPaths_mem _ _ (lookupPaths_ne_nil_mem _ _ hne)
    refine ⟨lookupPaths f (groupPairs pairs), (mem_duplicatesOf_iff _ _ _).mpr ⟨hmem, ?_⟩⟩
    rw [hlook, List.length_map]
    omega

/-- The paths of the group for `f` are the first components of the pairs
fingerprinted `f`. -/
theorem mem_group_mem_pairs (pairs : List (String × String)) (f p : String) :
    p ∈ (pairs.filter fun q => decide (q.2 = f)).map Prod.fst ↔ (p, f) ∈ pairs := by
  simp only [List.mem_map, List.mem_filter, decide_eq_true_eq]
  constructor
  · rintro ⟨⟨a, b⟩, ⟨hmem, hb⟩, ha⟩
    cases hb
    cases ha
    exact hmem
  · intro h
    exact ⟨(p, f), ⟨h, rfl⟩, rfl⟩

/-- C4. A fingerprint appears in the duplicate mapping exactly when at
least two input pairs carry it, and every emitted group has at least two
paths. -/
theorem C4_group_iff_at_least_two (pairs : List (String × String)) (f : String) :
    (∀ ps, (f, ps) ∈ duplicatesOf pairs → 2 ≤ ps.length) ∧
    ((∃ ps, (f, ps) ∈ duplicatesOf pairs) ↔
      2 ≤ (pairs.filter fun q => decide (q.2 = f)).length) := by
  refine ⟨?_, exists_duplicatesOf_iff pairs f⟩
  intro ps hps
  have := ((mem_duplicatesOf_iff pairs f ps).mp hps).2
  omega

/-- C4 witness: a shared fingerprint is emitted, a unique one is not. -/
theorem C4_witness :
    (∃ ps, ("h", ps) ∈ duplicatesOf [("a", "h"), ("b", "h"), ("c", "g")]) ∧
    ¬(∃ ps, ("g", ps) ∈ duplicatesOf [("a", "h"), ("b", "h"), ("c", "g")]) :=
  ⟨(C4_group_iff_at_least_two [("a", "h"), ("b", "h"), ("c", "g")] "h").2.mpr (by decide),
   fun h => by
    have := (C4_group_iff_at_least_two [("a", "h"), ("b", "h"), ("c", "g")] "g").2.mp h
    simp at this⟩

/-- C7. Grouping is order-independent on membership: permuting the input
pairs yields the same emitted fingerprints with the same member-path sets,
and each emitted group lists its paths in first-seen input order. -/
theorem C7_grouping_order_independent (pairs1 pairs2 : List (String × String))
    (hperm : pairs1.Perm pairs2) (f : String) :
    ((∃ ps, (f, ps) ∈ duplicatesOf pairs1) ↔ (∃ ps, (f, ps) ∈ duplicatesOf pairs2)) ∧
    (∀ ps qs, (f, ps) ∈ duplicatesOf pairs1 → (f, qs) ∈ duplicatesOf pairs2 →
      ∀ p, p ∈ ps ↔ p ∈ qs) ∧
    (∀ ps, (f, ps) ∈ duplicatesOf pairs1 →
      ps = (pairs1.filter fun q => decide (q.2 = f)).map Prod.fst) := by
  have hpf : (pairs1.filter fun q => decide (q.2 = f)).Perm
      (pairs2.filter fun q => decide (q.2 = f)) := hperm.filter _
  refine ⟨?_, ?_, fun ps hps => mem_duplicatesOf_eq _ _ _ hps⟩
  · rw [exists_duplicatesOf_iff, exists_duplicatesOf_iff, hpf.length_eq]
  · intro ps qs hps hqs p
    rw [mem_duplicatesOf_eq _ _ _ hps, mem_duplicatesOf_eq _ _ _ hqs,
      mem_group_mem_pairs, mem_group_mem_pairs]
    exact hperm.mem_iff

/-- C7 witness: two orderings of the same pairs emit the same
fingerprint. -/
theorem C7_witness :
    (∃ ps, ("h", ps) ∈ duplicatesOf [("a", "h"), ("b", "h")]) ↔
      (∃ ps, ("h", ps) ∈ duplicatesOf [("b", "h"), ("a", "h")]) :=
  (C7_grouping_order_independent [("a", "h"), ("b", "h")] [("b", "h"), ("a", "h")]
    (by decide) "h").1

/-! Deletion lemmas. -/

/-- Final filesystem membership after the inner deletion loop: a path
survives exactly when it was present and is either locked or was never in
the deletion list. In particular a failed (locked) deletion does not stop
the loop from deleting the remaining unlocked paths. -/
theorem deletePaths_mem (locked : String → Bool) (fs L : List String) (p : String) :
    p ∈ (deletePaths locked fs L).1 ↔ p ∈ fs ∧ (locked p = true ∨ p ∉ L) := by
  induction L generalizing fs with
  | nil => simp [deletePaths]
  | cons q rest ih =>
    simp only [deletePaths]
    by_cases hlq : locked q
    · have hrm : removeFile locked fs q = none := by simp [removeFile, hlq]
      rw [hrm]
      simp only []
      rw [ih]
      by_cases hpq : p = q
      · subst hpq
        simp [hlq]
      · simp [hpq, List.mem_cons]
    · by_cases hqfs : q ∈ fs
      · have hrm : removeFile locked fs q = some (fs.filter fun x => decide (x ≠ q)) := by
          simp [removeFile, hlq, hqfs]
        rw [hrm]
        rw [ih]
        by_cases hpq : p = q
        · subst hpq
          simp [List.mem_filter, hlq, hqfs]
        · simp [List.mem_filter, hpq, List.mem_cons]
      · have hrm : removeFile locked fs q = none := by simp [removeFile, hlq, hqfs]
        rw [hrm]
        simp only []
        rw [ih]
        by_cases hpq : p = q
        · subst hpq
          simp [hqfs]
        · simp [hpq, List.mem_cons]

/-- Every locked path in the deletion list is reported in the error
list. -/
theorem deletePaths_err (locked : String → Bool) (fs L : List String) (p : String)
    (hlp : locked p = true) (hpL : p ∈ L) : p ∈ (deletePaths locked fs L).2 := by
  induction L generalizing fs with
  | nil => cases hpL
  | cons q rest ih =>
    simp only [deletePaths]
    rcases List.mem_cons.mp hpL with rfl | hrest
    · have hrm : removeFile locked fs p = none := by simp [removeFile, hlp]
      rw [hrm]
      simp
    · cases hrm : removeFile locked fs q with
      | none =>
        simp only []
        exact List.mem_cons_of_mem _ (ih fs hrest)
      | some fs2 => exact ih fs2 hrest

/-- The inner deletion loop over a concatenation runs the two halves in
sequence, threading the filesystem and concatenating the error reports. -/
theorem deletePaths_append (locked : String → Bool) (fs L1 L2 : List String) :
    deletePaths locked fs (L1 ++ L2) =
      ((deletePaths locked (deletePaths locked fs L1).1 L2).1,
       (deletePaths locked fs L1).2 ++ (deletePaths locked (deletePaths locked fs L1).1 L2).2) := by
  induction L1 generalizing fs with
  | nil => simp [deletePaths]
  | cons q rest ih =>
    simp only [List.cons_append, deletePaths]
    cases hrm : removeFile locked fs q with
    | none => simp [ih]
    | some fs2 => simp [ih]

/-- The nested deletion loops are the flat loop over the concatenation of
the groups' non-first paths. -/
theorem deleteGroups_eq (locked : String → Bool) (fs : List String)
    (groups : List (String × List String)) :
    deleteGroups locked fs groups =
      deletePaths locked fs (groups.flatMap fun g => g.2.drop 1) := by
  induction groups generalizing fs with
  | nil => simp [deleteGroups, deletePaths]
  | cons g gs ih =>
    simp only [deleteGroups, List.flatMap_cons]
    rw [deletePaths_append, ih]

/-- C2. Over all duplicate groups, the deletion phase attempts exactly the
non-first paths (`skip(1)` per group): a path survives exactly when it is
either locked (its deletion fails) or is not a non-first member of any
group — so the first path of each group is kept — and every locked
attempted path is reported in the per-file error list while the remaining
deletions still happen. -/
theorem C2_keep_first_delete_rest (locked : String → Bool) (fs : List String)
    (groups : List (String × List String)) (p : String) :
    (p ∈ (deleteGroups locked fs groups).1 ↔
      p ∈ fs ∧ (locked p = true ∨ p ∉ groups.flatMap fun g => g.2.drop 1)) ∧
    (locked p = true → (p ∈ groups.flatMap fun g => g.2.drop 1) →
      p ∈ (deleteGroups locked fs groups).2) := by
  rw [deleteGroups_eq]
  exact ⟨deletePaths_mem locked fs _ p, fun h1 h2 => deletePaths_err locked fs _ p h1 h2⟩

/-- C2 witness: in a group `["a", "b"]` the second path is deleted and the
first survives; a locked path in another group is reported and does not
stop the deletion of `"b"`. -/
theorem C2_witness :
    "b" ∉ (deleteGroups (fun q => decide (q = "x")) ["a", "b", "w", "x"]
      [("g", ["w", "x"]), ("h", ["a", "b"])]).1 ∧
    "a" ∈ (deleteGroups (fun q => decide (q = "x")) ["a", "b", "w", "x"]
      [("g", ["w", "x"]), ("h", ["a", "b"])]).1 ∧
    "x" ∈ (deleteGroups (fun q => decide (q = "x")) ["a", "b", "w", "x"]
      [("g", ["w", "x"]), ("h", ["a", "b"])]).2 := by
  refine ⟨?_, ?_, ?_⟩
  · intro hmem
    have h := (C2_keep_first_delete_rest (fun q => decide (q = "x")) ["a", "b", "w", "x"]
      [("g", ["w", "x"]), ("h", ["a", "b"])] "b").1.mp hmem
    revert h
    decide
  · exact (C2_keep_first_delete_rest (fun q => decide (q = "x")) ["a", "b", "w", "x"]
      [("g", ["w", "x"]), ("h", ["a", "b"])] "a").1.mpr (by decide)
  · exact (C2_keep_first_delete_rest (fun q => decide (q = "x")) ["a", "b", "w", "x"]
      [("g", ["w", "x"]), ("h", ["a", "b"])] "x").2 (by decide) (by decide)

/-- C3. The claim compares the confirmation line case-insensitively with
`yes` and nothing else; the code first trims surrounding whitespace
(line 122), so the line `" yes"` — not case-insensitively equal to `"yes"`
— still triggers deletion. -/
theorem C3_counterexample :
    confirmDelete " yes" = true ∧ strToLower " yes" ≠ "yes" := by decide

/-- C3 (amended): deletion is triggered exactly when the confirmation
line, after trimming surrounding whitespace, case-insensitively equals
`"yes"`; for every other confirmation input the deletion loops do not run
and the filesystem is unchanged. -/
theorem C3_trimmed_yes_triggers (locked : String → Bool) (fs : List String)
    (dups : List (String × List String)) (input : String) :
    (confirmDelete input = true ↔ strToLower (strTrim input) = "yes") ∧
    (confirmDelete input = false → mainAfterScan locked fs dups input = (fs, [])) ∧
    (confirmDelete input = true → dups ≠ [] →
      mainAfterScan locked fs dups input = deleteGroups locked fs dups) := by
  refine ⟨?_, ?_, ?_⟩
  · unfold confirmDelete
    exact ⟨fun h => by simpa using h, fun h => by simp [h]⟩
  · intro h
    unfold mainAfterScan
    by_cases hd : dups.isEmpty <;> simp [hd, h]
  · intro h hne
    unfold mainAfterScan
    have hd : dups.isEmpty = false := by
      cases dups with
      | nil => exact absurd rfl hne
      | cons g gs => rfl
    simp [hd, h]

/-- C3 witness: the input `"no"` leaves the filesystem unchanged. -/
theorem C3_witness :
    mainAfterScan (fun _ => false) ["a", "b"] [("h", ["a", "b"])] "no" = (["a", "b"], []) :=
  (C3_trimmed_yes_triggers (fun _ => false) ["a", "b"] [("h", ["a", "b"])] "no").2.1 (by decide)

/-! Fingerprint format lemmas. -/

/-- An MD5 digest is sixteen bytes. -/
theorem md5Bytes_length (msg : List Nat) : (md5Bytes msg).length = 16 := by
  unfold md5Bytes
  simp [le4]

/-- Hex encoding emits two characters per byte. -/
theorem hexOfBytes_length (l : List Nat) : (hexOfBytes l).length = 2 * l.length := by
  induction l with
  | nil => rfl
  | cons b rest ih =>
    simp only [hexOfBytes, List.length_cons, ih]
    omega

/-- Every character produced by `hexDigit` is a lowercase hexadecimal
digit. -/
theorem hexDigit_mem (n : Nat) : hexDigit n ∈ hexDigitChars := by
  unfold hexDigit
  rw [List.getD_eq_getElem?_getD]
  cases h : hexDigitChars[n % 16]? with
  | none => decide
  | some c =>
    have hg : hexDigitChars.get? (n % 16) = some c := by
      rw [List.get?_eq_getElem?]
      exact h
    simpa using List.get?_mem hg

/-- Every character of a hex encoding is a lowercase hexadecimal digit. -/
theorem hexOfBytes_mem (l : List Nat) (c : Char) (h : c ∈ hexOfBytes l) :
    c ∈ hexDigitChars := by
  induction l with
  | nil => cases h
  | cons b rest ih =>
    rcases List.mem_cons.mp h with rfl | h2
    · exact hexDigit_mem _
    · rcases List.mem_cons.mp h2 with rfl | h3
      · exact hexDigit_mem _
      · exact ih h3

/-- An MD5 hex fingerprint always has 32 characters (128 bits, four bits
per hex digit). -/
theorem md5hex_length (msg : List Nat) : (md5hex msg).length = 32 := by
  unfold md5hex
  show (hexOfBytes (md5Bytes msg)).length = 32
  rw [hexOfBytes_length, md5Bytes_length]

/-- C8. Fingerprinting is deterministic: two files with identical bytes
receive the same fingerprint (the whole pipeline is a function of the file
content), and every successful fingerprint is a 32-character lowercase
hexadecimal string, i.e. a hex-encoded 128-bit value. -/
theorem C8_deterministic_md5_hex (decodeGray : List Nat → Option (List Nat))
    (readF : String → Option (List Nat)) (p1 p2 : String)
    (hsame : readF p1 = readF p2) (h1 h2 : String)
    (e1 : calculate_image_hash decodeGray readF p1 = Except.ok h1)
    (e2 : calculate_image_hash decodeGray readF p2 = Except.ok h2) :
    h1 = h2 ∧ h1.length = 32 ∧ ∀ c ∈ h1.data, c ∈ hexDigitChars := by
  unfold calculate_image_hash at e1 e2
  rw [← hsame] at e2
  split at e1
  · cases e1
  · rename_i c heq
    split at e1
    · cases e1
    · rename_i px hd
      cases e1
      rw [heq] at e2
      simp only [hd] at e2
      cases e2
      exact ⟨rfl, md5hex_length px, fun c hc => hexOfBytes_mem _ c hc⟩

/-- C8 witness: a concrete two-byte content hashed through an identity
decode pipeline. -/
theorem C8_witness :
    calculate_image_hash some (fun _ => some [0, 1]) "a" = Except.ok (md5hex [0, 1]) ∧
    (md5hex [0, 1]).length = 32 :=
  ⟨rfl, (C8_deterministic_md5_hex some (fun _ => some [0, 1]) "a" "b" rfl
    (md5hex [0, 1]) (md5hex [0, 1]) rfl rfl).2.1⟩
